import Mathlib

/-!
Verification of the github-metrics aggregator (Go, `main.go`).

The Go program is a sequential pipeline: repository discovery via three
search queries, seven paginated metric collectors, an additive per-user
aggregation step, and an HTML report.  This file gives a shallow embedding
of that logic:

* Go `int` counters become `Nat` (all collector contributions are
  non-negative increments).
* Go `float64` values (`LcP`, `Score`, timestamps) are modelled by `ℚ`;
  the score formula and the lifecycle average are exact arithmetic on the
  collected integers, so the claims about them are unaffected.
* a paginated remote endpoint is modelled by the list of responses the
  retry wrapper delivers to the collector loop: each element is
  `some page` (a successful `retryWithBackoff` call, carrying the items
  and the `NextPage` cursor of the response) or `none` (a call whose five
  attempts all failed, so `retryWithBackoff` returned `nil, nil, err`).
* Go maps become association lists (`Repos`) or insertion sets
  (repository discovery); a `nil` map is distinguished from an empty one
  with `Option`.
* Go strings handled only as opaque keys stay `String`; the strings taken
  apart by `strings.Split` / `strings.HasPrefix` in repository discovery
  are modelled as `List Char` so those operations can be reasoned about.
-/

namespace GithubMetrics

/-- Per-user accumulator, mirroring Go `type UserMetrics struct`.
`Repos` is `none` while the Go map is `nil`. -/
structure UserMetrics where
  Commits : Nat
  HoC : Nat
  Issues : Nat
  LcP : ℚ
  Msgs : Nat
  Pulls : Nat
  Reviews : Nat
  Score : ℚ
  Repos : Option (List (String × Nat))
deriving Repr, DecidableEq

/-- Zero value of `UserMetrics`: the value `metrics[user]` has in Go before
the first update (all counters 0, `Repos` nil). -/
def emptyUserMetrics : UserMetrics :=
  { Commits := 0, HoC := 0, Issues := 0, LcP := 0, Msgs := 0, Pulls := 0
    Reviews := 0, Score := 0, Repos := none }

/-- Go `calculateScore`: `float64(HoC) + float64(Pulls)*250 +
float64(Issues)*50 + float64(Commits)*5 + float64(Reviews)*150 +
float64(Msgs)*5`. -/
def calculateScore (metrics : UserMetrics) : ℚ :=
  (metrics.HoC : ℚ) + (metrics.Pulls : ℚ) * 250 + (metrics.Issues : ℚ) * 50
    + (metrics.Commits : ℚ) * 5 + (metrics.Reviews : ℚ) * 150 + (metrics.Msgs : ℚ) * 5

/-- Go map assignment `repos[r] += h` on the association-list model: add to
the (unique) existing entry for `r`, or append a new entry. -/
def bumpRepo : List (String × Nat) → String → Nat → List (String × Nat)
  | [], r, h => [(r, h)]
  | p :: rest, r, h =>
    if p.1 = r then (p.1, p.2 + h) :: rest else p :: bumpRepo rest r h

/-- Go `updateUserMetrics`: add every numeric field of `update` into
`metrics`, allocate the `Repos` map if it is still nil, fold the update's
`Repos` entries in with `+=`, then recompute `Score` from the new totals.
The `Score` field of `update` is ignored, exactly as in the Go code. -/
def updateUserMetrics (metrics update : UserMetrics) : UserMetrics :=
  let m : UserMetrics :=
    { Commits := metrics.Commits + update.Commits
      HoC := metrics.HoC + update.HoC
      Issues := metrics.Issues + update.Issues
      LcP := metrics.LcP + update.LcP
      Msgs := metrics.Msgs + update.Msgs
      Pulls := metrics.Pulls + update.Pulls
      Reviews := metrics.Reviews + update.Reviews
      Score := metrics.Score
      Repos := some ((update.Repos.getD []).foldl
        (fun acc p => bumpRepo acc p.1 p.2) (metrics.Repos.getD [])) }
  { m with Score := calculateScore m }

/-- Replace the `LcP` component of an update, leaving everything else. -/
def setLcP (u : UserMetrics) (q : ℚ) : UserMetrics := { u with LcP := q }

lemma updateUserMetrics_score (m u : UserMetrics) :
    (updateUserMetrics m u).Score = calculateScore (updateUserMetrics m u) := rfl

lemma foldl_updateUserMetrics_score (l : List UserMetrics) :
    ∀ m : UserMetrics, m.Score = calculateScore m →
      (l.foldl updateUserMetrics m).Score
        = calculateScore (l.foldl updateUserMetrics m) := by
  induction l with
  | nil => intro m h; exact h
  | cons u rest ih =>
    intro m _
    exact ih (updateUserMetrics m u) (updateUserMetrics_score m u)

/-- Agreement on every field except `LcP`. -/
def AgreeExceptLcP (m m' : UserMetrics) : Prop :=
  m.Commits = m'.Commits ∧ m.HoC = m'.HoC ∧ m.Issues = m'.Issues
    ∧ m.Msgs = m'.Msgs ∧ m.Pulls = m'.Pulls ∧ m.Reviews = m'.Reviews
    ∧ m.Score = m'.Score ∧ m.Repos = m'.Repos

lemma agree_update {m m' : UserMetrics} (u : UserMetrics) (q : ℚ)
    (h : AgreeExceptLcP m m') :
    AgreeExceptLcP (updateUserMetrics m u) (updateUserMetrics m' (setLcP u q)) := by
  obtain ⟨h1, h2, h3, h4, h5, h6, h7, h8⟩ := h
  refine ⟨?_, ?_, ?_, ?_, ?_, ?_, ?_, ?_⟩ <;>
    simp [updateUserMetrics, setLcP, calculateScore, h1, h2, h3, h4, h5, h6, h8]

lemma agree_foldl (l : List UserMetrics) :
    ∀ m m' : UserMetrics, AgreeExceptLcP m m' →
      AgreeExceptLcP (l.foldl updateUserMetrics m)
        ((l.map (fun u => setLcP u 0)).foldl updateUserMetrics m') := by
  induction l with
  | nil => intro m m' h; exact h
  | cons u rest ih =>
    intro m m' h
    exact ih (updateUserMetrics m u) (updateUserMetrics m' (setLcP u 0))
      (agree_update u 0 h)

/-- C1: after aggregating any sequence of per-repository contributions,
starting from the zero accumulator, the user's `Score` equals
`HoC*1 + Pulls*250 + Issues*50 + Commits*5 + Reviews*150 + Msgs*5`
computed from the final accumulated totals (exact equality over ℚ), and
the `LcP` lifecycle values of the contributions have no effect on the
score: zeroing every contribution's `LcP` yields the same final score. -/
theorem score_weighted_sum (updates : List UserMetrics) :
    ((updates.foldl updateUserMetrics emptyUserMetrics).Score =
      ((updates.foldl updateUserMetrics emptyUserMetrics).HoC : ℚ) * 1
      + ((updates.foldl updateUserMetrics emptyUserMetrics).Pulls : ℚ) * 250
      + ((updates.foldl updateUserMetrics emptyUserMetrics).Issues : ℚ) * 50
      + ((updates.foldl updateUserMetrics emptyUserMetrics).Commits : ℚ) * 5
      + ((updates.foldl updateUserMetrics emptyUserMetrics).Reviews : ℚ) * 150
      + ((updates.foldl updateUserMetrics emptyUserMetrics).Msgs : ℚ) * 5)
    ∧ ((updates.map (fun u => setLcP u 0)).foldl updateUserMetrics
        emptyUserMetrics).Score
      = (updates.foldl updateUserMetrics emptyUserMetrics).Score := by
  constructor
  · have h := foldl_updateUserMetrics_score updates emptyUserMetrics (by
      simp [emptyUserMetrics, calculateScore])
    rw [h, calculateScore]
    ring
  · have h := agree_foldl updates emptyUserMetrics emptyUserMetrics
      ⟨rfl, rfl, rfl, rfl, rfl, rfl, rfl, rfl⟩
    exact h.2.2.2.2.2.2.1.symm

/-- Response to one page request, as the collector loops see it after
`retryWithBackoff` succeeds: the page's items plus `resp.NextPage`
(`0` means no further page). -/
structure Page (α : Type) where
  items : List α
  nextPage : Nat
deriving Repr, DecidableEq

/-- File entry of a commit-detail response (`details.Files`); only
`GetAdditions()` and `GetChanges()` are read by `getHoC`. -/
structure CommitFile where
  additions : Nat
  changes : Nat
deriving Repr, DecidableEq

/-- Commit as returned by the list-commits endpoint. `authorLogin` is
`none` when `commit.Author` is nil, otherwise `some` of
`commit.Author.GetLogin()`.  `parentsCount` is `len(commit.Parents)` (a
nil slice has length 0).  `files` is what a `GetCommit` detail fetch for
this SHA would deliver; `none` models that fetch erroring out. -/
structure Commit where
  authorLogin : Option String
  parentsCount : Nat
  files : Option (List CommitFile)
deriving Repr, DecidableEq

/-- Issue or search result; the fields the collectors read. `isPR` is
`issue.IsPullRequest()`, the timestamps are in hours (`ℚ` models the
`float64` hour count), `comments` is `GetComments()`, and
`repositoryURL` is `GetRepositoryURL()` as a character list. -/
structure Issue where
  isPR : Bool
  createdAt : Option ℚ
  closedAt : Option ℚ
  comments : Nat
  repositoryURL : List Char
deriving Repr, DecidableEq

/-- Go `isMergeCommit`: `commit.Parents != nil && len(commit.Parents) > 1`
(a nil slice has length 0, so this is exactly `len > 1`). -/
def isMergeCommit (commit : Commit) : Bool :=
  decide (commit.parentsCount > 1)

/-- Loop-body guard of `getCommits` and `getHoC`:
`commit.Author != nil && commit.Author.GetLogin() == user &&
!isMergeCommit(commit)`. -/
def commitQualifies (user : String) (commit : Commit) : Bool :=
  commit.authorLogin == some user && !(isMergeCommit commit)

/-- Response stream on which a collector loop visits every page: no
request fails, and every response except the last carries a non-zero
`NextPage` cursor. -/
def processesAll {α : Type} : List (Option (Page α)) → Bool
  | [] => true
  | [some _] => true
  | some p :: q :: rest => (p.nextPage != 0) && processesAll (q :: rest)
  | none :: _ => false

/-- Go `getCommits`, as a function of the response stream: count the
commits that pass `commitQualifies`.  Returns the count paired with the
number of page requests issued.  A failed request (`none`) logs and
returns the count accumulated so far. -/
def getCommits (user : String) : Nat → List (Option (Page Commit)) → Nat × Nat
  | commits, [] => (commits, 0)
  | commits, none :: _ => (commits, 1)
  | commits, some page :: rest =>
    let commits' := page.items.foldl
      (fun acc c => if commitQualifies user c then acc + 1 else acc) commits
    if page.nextPage = 0 then (commits', 1)
    else
      let r := getCommits user commits' rest
      (r.1, r.2 + 1)

/-- Per-commit contribution inside `getHoC`'s loop: for a qualifying
commit, fetch the detail (`GetCommit`) and add
`file.GetAdditions() + file.GetChanges()` over its files; a failed detail
fetch is logged and skipped. -/
def hocOfCommit (user : String) (acc : Nat) (c : Commit) : Nat :=
  if commitQualifies user c then
    match c.files with
    | none => acc
    | some files => files.foldl (fun a f => a + f.additions + f.changes) acc
  else acc

/-- Go `getHoC`, as a function of the response stream of the list-commits
endpoint; second component counts the page requests issued. -/
def getHoC (user : String) : Nat → List (Option (Page Commit)) → Nat × Nat
  | hoc, [] => (hoc, 0)
  | hoc, none :: _ => (hoc, 1)
  | hoc, some page :: rest =>
    let hoc' := page.items.foldl (hocOfCommit user) hoc
    if page.nextPage = 0 then (hoc', 1)
    else
      let r := getHoC user hoc' rest
      (r.1, r.2 + 1)

/-- Go `getIssues`: count the listed items that are not pull requests. -/
def getIssues : Nat → List (Option (Page Issue)) → Nat × Nat
  | issues, [] => (issues, 0)
  | issues, none :: _ => (issues, 1)
  | issues, some page :: rest =>
    let issues' := page.items.foldl
      (fun acc i => if !i.isPR then acc + 1 else acc) issues
    if page.nextPage = 0 then (issues', 1)
    else
      let r := getIssues issues' rest
      (r.1, r.2 + 1)

/-- Loop body of `getLcP`: for each closed pull request with both
timestamps present, accumulate `ClosedAt - CreatedAt` in hours and bump
the count. -/
def lcpStep (tc : ℚ × Nat) (i : Issue) : ℚ × Nat :=
  match i.isPR, i.createdAt, i.closedAt with
  | true, some c, some cl => (tc.1 + (cl - c), tc.2 + 1)
  | _, _, _ => tc

/-- Go `getLcP`: average lifecycle hours over the found pull requests;
`0.0` when none were found.  On a failed page request the Go code returns
`0.0` immediately (discarding any partial accumulation). -/
def getLcP : ℚ → Nat → List (Option (Page Issue)) → ℚ × Nat
  | totalTime, count, [] =>
    (if count = 0 then 0 else totalTime / (count : ℚ), 0)
  | _, _, none :: _ => (0, 1)
  | totalTime, count, some page :: rest =>
    let tc := page.items.foldl lcpStep (totalTime, count)
    if page.nextPage = 0 then
      (if tc.2 = 0 then 0 else tc.1 / (tc.2 : ℚ), 1)
    else
      let r := getLcP tc.1 tc.2 rest
      (r.1, r.2 + 1)

/-- Go `getMsgs`: sum `GetComments()` over every search result. -/
def getMsgs : Nat → List (Option (Page Issue)) → Nat × Nat
  | msgs, [] => (msgs, 0)
  | msgs, none :: _ => (msgs, 1)
  | msgs, some page :: rest =>
    let msgs' := page.items.foldl (fun acc i => acc + i.comments) msgs
    if page.nextPage = 0 then (msgs', 1)
    else
      let r := getMsgs msgs' rest
      (r.1, r.2 + 1)

/-- Go `getPulls`: count search results that are pull requests with a
non-nil `ClosedAt`. -/
def getPulls : Nat → List (Option (Page Issue)) → Nat × Nat
  | pulls, [] => (pulls, 0)
  | pulls, none :: _ => (pulls, 1)
  | pulls, some page :: rest =>
    let pulls' := page.items.foldl
      (fun acc i => if i.isPR && i.closedAt.isSome then acc + 1 else acc) pulls
    if page.nextPage = 0 then (pulls', 1)
    else
      let r := getPulls pulls' rest
      (r.1, r.2 + 1)

/-- Go `getReviews`: count every search result.  The Go function performs
the type assertion `result.(*github.IssuesSearchResult)` BEFORE checking
the error, and when all five attempts of `retryWithBackoff` fail it hands
back a nil `result`, so the assertion panics.  `none` models that panic;
otherwise the result is the count paired with the requests issued. -/
def getReviews : Nat → List (Option (Page Issue)) → Option (Nat × Nat)
  | reviewsCount, [] => some (reviewsCount, 0)
  | _, none :: _ => none
  | reviewsCount, some page :: rest =>
    let reviewsCount' := reviewsCount + page.items.length
    if page.nextPage = 0 then some (reviewsCount', 1)
    else
      match getReviews reviewsCount' rest with
      | some r => some (r.1, r.2 + 1)
      | none => none

/-- Remove the merge commits from every page of a response stream. -/
def dropMergeCommits (s : List (Option (Page Commit))) : List (Option (Page Commit)) :=
  s.map (Option.map (fun p => { p with items := p.items.filter (fun c => !(isMergeCommit c)) }))

lemma dropMergeCommits_cons (x : Option (Page Commit)) (s : List (Option (Page Commit))) :
    dropMergeCommits (x :: s)
      = (Option.map (fun p => { p with items := p.items.filter (fun c => !(isMergeCommit c)) }) x)
        :: dropMergeCommits s := rfl

lemma map_dropMergeCommits (s : List (Option (Page Commit))) :
    s.map (Option.map (fun p => { p with items := p.items.filter (fun c => !(isMergeCommit c)) }))
      = dropMergeCommits s := rfl

lemma commitQualifies_of_merge (user : String) (c : Commit)
    (h : isMergeCommit c = true) : commitQualifies user c = false := by
  simp [commitQualifies, h]

lemma countPage_dropMerge (user : String) (items : List Commit) : ∀ acc : Nat,
    (items.filter (fun c => !(isMergeCommit c))).foldl
        (fun acc c => if commitQualifies user c then acc + 1 else acc) acc
      = items.foldl (fun acc c => if commitQualifies user c then acc + 1 else acc) acc := by
  induction items with
  | nil => intro acc; rfl
  | cons c rest ih =>
    intro acc
    by_cases h : isMergeCommit c
    · simp [List.filter_cons, h, commitQualifies_of_merge user c h, ih]
    · simp [List.filter_cons, h, ih]

lemma hocPage_dropMerge (user : String) (items : List Commit) : ∀ acc : Nat,
    (items.filter (fun c => !(isMergeCommit c))).foldl (hocOfCommit user) acc
      = items.foldl (hocOfCommit user) acc := by
  induction items with
  | nil => intro acc; rfl
  | cons c rest ih =>
    intro acc
    by_cases h : isMergeCommit c
    · simp [List.filter_cons, h, ih, hocOfCommit, commitQualifies_of_merge user c h]
    · simp [List.filter_cons, h, ih]

lemma getCommits_dropMerge (user : String) :
    ∀ (s : List (Option (Page Commit))) (acc : Nat),
      getCommits user acc (dropMergeCommits s) = getCommits user acc s := by
  intro s
  induction s with
  | nil => intro acc; rfl
  | cons hd tl ih =>
    intro acc
    cases hd with
    | none => simp [dropMergeCommits_cons, getCommits]
    | some p =>
      simp only [dropMergeCommits_cons, Option.map_some', getCommits,
        countPage_dropMerge, map_dropMergeCommits, ih]

lemma getHoC_dropMerge (user : String) :
    ∀ (s : List (Option (Page Commit))) (acc : Nat),
      getHoC user acc (dropMergeCommits s) = getHoC user acc s := by
  intro s
  induction s with
  | nil => intro acc; rfl
  | cons hd tl ih =>
    intro acc
    cases hd with
    | none => simp [dropMergeCommits_cons, getHoC]
    | some p =>
      simp only [dropMergeCommits_cons, Option.map_some', getHoC,
        hocPage_dropMerge, map_dropMergeCommits, ih]

/-- C3: merge commits (more than one parent) are never counted: on any
response stream mixing merge and non-merge commits, removing every merge
commit changes neither the commit count of `getCommits` nor the
lines-touched total of `getHoC` (nor the requests issued by either). -/
theorem merge_commits_never_counted (user : String)
    (s : List (Option (Page Commit))) :
    getCommits user 0 (dropMergeCommits s) = getCommits user 0 s
    ∧ getHoC user 0 (dropMergeCommits s) = getHoC user 0 s :=
  ⟨getCommits_dropMerge user s 0, getHoC_dropMerge user s 0⟩

/-- C4 (code bug): when the very first search call of `getReviews` fails
through all five retry attempts, `retryWithBackoff` returns a nil result
and the Go function performs the interface type assertion on that nil
before its error check, so the process panics instead of logging a
warning and returning the accumulated count.  `none` is the embedded
value of that panic. -/
theorem getReviews_fatal_on_failed_request : getReviews 0 [none] = none := rfl

lemma getCommits_requests (user : String) :
    ∀ s : List (Option (Page Commit)), processesAll s = true →
      ∀ acc : Nat, (getCommits user acc s).2 = s.length := by
  intro s
  induction s with
  | nil => intro _ acc; rfl
  | cons hd tl ih =>
    intro h acc
    cases hd with
    | none => cases tl <;> simp [processesAll] at h
    | some p =>
      cases tl with
      | nil => by_cases hp : p.nextPage = 0 <;> simp [getCommits, hp]
      | cons q rest =>
        have hh : (p.nextPage != 0) = true ∧ processesAll (q :: rest) = true := by
          simpa [processesAll, Bool.and_eq_true] using h
        have hp : ¬ p.nextPage = 0 := by
          intro e; rw [e] at hh; simp at hh
        simp [getCommits, hp, ih hh.2]

lemma getHoC_requests (user : String) :
    ∀ s : List (Option (Page Commit)), processesAll s = true →
      ∀ acc : Nat, (getHoC user acc s).2 = s.length := by
  intro s
  induction s with
  | nil => intro _ acc; rfl
  | cons hd tl ih =>
    intro h acc
    cases hd with
    | none => cases tl <;> simp [processesAll] at h
    | some p =>
      cases tl with
      | nil => by_cases hp : p.nextPage = 0 <;> simp [getHoC, hp]
      | cons q rest =>
        have hh : (p.nextPage != 0) = true ∧ processesAll (q :: rest) = true := by
          simpa [processesAll, Bool.and_eq_true] using h
        have hp : ¬ p.nextPage = 0 := by
          intro e; rw [e] at hh; simp at hh
        simp [getHoC, hp, ih hh.2]

lemma getIssues_requests :
    ∀ s : List (Option (Page Issue)), processesAll s = true →
      ∀ acc : Nat, (getIssues acc s).2 = s.length := by
  intro s
  induction s with
  | nil => intro _ acc; rfl
  | cons hd tl ih =>
    intro h acc
    cases hd with
    | none => cases tl <;> simp [processesAll] at h
    | some p =>
      cases tl with
      | nil => by_cases hp : p.nextPage = 0 <;> simp [getIssues, hp]
      | cons q rest =>
        have hh : (p.nextPage != 0) = true ∧ processesAll (q :: rest) = true := by
          simpa [processesAll, Bool.and_eq_true] using h
        have hp : ¬ p.nextPage = 0 := by
          intro e; rw [e] at hh; simp at hh
        simp [getIssues, hp, ih hh.2]

lemma getLcP_requests :
    ∀ s : List (Option (Page Issue)), processesAll s = true →
      ∀ (tt : ℚ) (cnt : Nat), (getLcP tt cnt s).2 = s.length := by
  intro s
  induction s with
  | nil => intro _ tt cnt; rfl
  | cons hd tl ih =>
    intro h tt cnt
    cases hd with
    | none => cases tl <;> simp [processesAll] at h
    | some p =>
      cases tl with
      | nil => by_cases hp : p.nextPage = 0 <;> simp [getLcP, hp]
      | cons q rest =>
        have hh : (p.nextPage != 0) = true ∧ processesAll (q :: rest) = true := by
          simpa [processesAll, Bool.and_eq_true] using h
        have hp : ¬ p.nextPage = 0 := by
          intro e; rw [e] at hh; simp at hh
        simp [getLcP, hp, ih hh.2]

lemma getMsgs_requests :
    ∀ s : List (Option (Page Issue)), processesAll s = true →
      ∀ acc : Nat, (getMsgs acc s).2 = s.length := by
  intro s
  induction s with
  | nil => intro _ acc; rfl
  | cons hd tl ih =>
    intro h acc
    cases hd with
    | none => cases tl <;> simp [processesAll] at h
    | some p =>
      cases tl with
      | nil => by_cases hp : p.nextPage = 0 <;> simp [getMsgs, hp]
      | cons q rest =>
        have hh : (p.nextPage != 0) = true ∧ processesAll (q :: rest) = true := by
          simpa [processesAll, Bool.and_eq_true] using h
        have hp : ¬ p.nextPage = 0 := by
          intro e; rw [e] at hh; simp at hh
        simp [getMsgs, hp, ih hh.2]

lemma getPulls_requests :
    ∀ s : List (Option (Page Issue)), processesAll s = true →
      ∀ acc : Nat, (getPulls acc s).2 = s.length := by
  intro s
  induction s with
  | nil => intro _ acc; rfl
  | cons hd tl ih =>
    intro h acc
    cases hd with
    | none => cases tl <;> simp [processesAll] at h
    | some p =>
      cases tl with
      | nil => by_cases hp : p.nextPage = 0 <;> simp [getPulls, hp]
      | cons q rest =>
        have hh : (p.nextPage != 0) = true ∧ processesAll (q :: rest) = true := by
          simpa [processesAll, Bool.and_eq_true] using h
        have hp : ¬ p.nextPage = 0 := by
          intro e; rw [e] at hh; simp at hh
        simp [getPulls, hp, ih hh.2]

lemma getReviews_requests :
    ∀ s : List (Option (Page Issue)), processesAll s = true →
      ∀ acc : Nat, ∃ v : Nat, getReviews acc s = some (v, s.length) := by
  intro s
  induction s with
  | nil => intro _ acc; exact ⟨acc, rfl⟩
  | cons hd tl ih =>
    intro h acc
    cases hd with
    | none => cases tl <;> simp [processesAll] at h
    | some p =>
      cases tl with
      | nil =>
        by_cases hp : p.nextPage = 0 <;>
          exact ⟨acc + p.items.length, by simp [getReviews, hp]⟩
      | cons q rest =>
        have hh : (p.nextPage != 0) = true ∧ processesAll (q :: rest) = true := by
          simpa [processesAll, Bool.and_eq_true] using h
        have hp : ¬ p.nextPage = 0 := by
          intro e; rw [e] at hh; simp at hh
        obtain ⟨v, hv⟩ := ih hh.2 (acc + p.items.length)
        exact ⟨v, by simp [getReviews, hp, hv]⟩

lemma getCommits_empty_items (user : String) :
    ∀ pages : List (Page Commit), (∀ p ∈ pages, p.items = []) →
      ∀ acc : Nat, (getCommits user acc (pages.map some)).1 = acc := by
  intro pages
  induction pages with
  | nil => intro _ acc; rfl
  | cons p rest ih =>
    intro h acc
    have hp : p.items = [] := h p (by simp)
    have hr := ih (fun q hq => h q (by simp [hq])) acc
    by_cases hn : p.nextPage = 0 <;> simp [getCommits, hp, hn, hr]

lemma getHoC_empty_items (user : String) :
    ∀ pages : List (Page Commit), (∀ p ∈ pages, p.items = []) →
      ∀ acc : Nat, (getHoC user acc (pages.map some)).1 = acc := by
  intro pages
  induction pages with
  | nil => intro _ acc; rfl
  | cons p rest ih =>
    intro h acc
    have hp : p.items = [] := h p (by simp)
    have hr := ih (fun q hq => h q (by simp [hq])) acc
    by_cases hn : p.nextPage = 0 <;> simp [getHoC, hp, hn, hr]

lemma getIssues_empty_items :
    ∀ pages : List (Page Issue), (∀ p ∈ pages, p.items = []) →
      ∀ acc : Nat, (getIssues acc (pages.map some)).1 = acc := by
  intro pages
  induction pages with
  | nil => intro _ acc; rfl
  | cons p rest ih =>
    intro h acc
    have hp : p.items = [] := h p (by simp)
    have hr := ih (fun q hq => h q (by simp [hq])) acc
    by_cases hn : p.nextPage = 0 <;> simp [getIssues, hp, hn, hr]

lemma getLcP_empty_items :
    ∀ pages : List (Page Issue), (∀ p ∈ pages, p.items = []) →
      ∀ (tt : ℚ) (cnt : Nat),
        (getLcP tt cnt (pages.map some)).1 = if cnt = 0 then 0 else tt / (cnt : ℚ) := by
  intro pages
  induction pages with
  | nil => intro _ tt cnt; rfl
  | cons p rest ih =>
    intro h tt cnt
    have hp : p.items = [] := h p (by simp)
    have hr := ih (fun q hq => h q (by simp [hq])) tt cnt
    by_cases hn : p.nextPage = 0 <;> simp [getLcP, hp, hn, hr]

lemma getMsgs_empty_items :
    ∀ pages : List (Page Issue), (∀ p ∈ pages, p.items = []) →
      ∀ acc : Nat, (getMsgs acc (pages.map some)).1 = acc := by
  intro pages
  induction pages with
  | nil => intro _ acc; rfl
  | cons p rest ih =>
    intro h acc
    have hp : p.items = [] := h p (by simp)
    have hr := ih (fun q hq => h q (by simp [hq])) acc
    by_cases hn : p.nextPage = 0 <;> simp [getMsgs, hp, hn, hr]

lemma getPulls_empty_items :
    ∀ pages : List (Page Issue), (∀ p ∈ pages, p.items = []) →
      ∀ acc : Nat, (getPulls acc (pages.map some)).1 = acc := by
  intro pages
  induction pages with
  | nil => intro _ acc; rfl
  | cons p rest ih =>
    intro h acc
    have hp : p.items = [] := h p (by simp)
    have hr := ih (fun q hq => h q (by simp [hq])) acc
    by_cases hn : p.nextPage = 0 <;> simp [getPulls, hp, hn, hr]

lemma getReviews_empty_items :
    ∀ pages : List (Page Issue), (∀ p ∈ pages, p.items = []) →
      ∀ acc : Nat, ∃ n : Nat, getReviews acc (pages.map some) = some (acc, n) := by
  intro pages
  induction pages with
  | nil => intro _ acc; exact ⟨0, rfl⟩
  | cons p rest ih =>
    intro h acc
    have hp : p.items = [] := h p (by simp)
    by_cases hn : p.nextPage = 0
    · exact ⟨1, by simp [getReviews, hp, hn]⟩
    · obtain ⟨n, hr⟩ := ih (fun q hq => h q (by simp [hq])) acc
      exact ⟨n + 1, by simp [getReviews, hp, hn, hr]⟩

/-- C9: every collector, given a response stream of N pages whose
non-final pages all carry a next-page cursor and in which no request
fails, issues exactly N page requests and terminates; and given pages
with no results at all it returns the zero value of its metric (0 for
the counters, 0 for the lifecycle average) without error. -/
theorem pagination_termination :
    (∀ (user : String) (s : List (Option (Page Commit))), processesAll s = true →
      (getCommits user 0 s).2 = s.length)
  ∧ (∀ (user : String) (s : List (Option (Page Commit))), processesAll s = true →
      (getHoC user 0 s).2 = s.length)
  ∧ (∀ s : List (Option (Page Issue)), processesAll s = true →
      (getIssues 0 s).2 = s.length)
  ∧ (∀ s : List (Option (Page Issue)), processesAll s = true →
      (getLcP 0 0 s).2 = s.length)
  ∧ (∀ s : List (Option (Page Issue)), processesAll s = true →
      (getMsgs 0 s).2 = s.length)
  ∧ (∀ s : List (Option (Page Issue)), processesAll s = true →
      (getPulls 0 s).2 = s.length)
  ∧ (∀ s : List (Option (Page Issue)), processesAll s = true →
      ∃ v : Nat, getReviews 0 s = some (v, s.length))
  ∧ (∀ (user : String) (pages : List (Page Commit)), (∀ p ∈ pages, p.items = []) →
      (getCommits user 0 (pages.map some)).1 = 0)
  ∧ (∀ (user : String) (pages : List (Page Commit)), (∀ p ∈ pages, p.items = []) →
      (getHoC user 0 (pages.map some)).1 = 0)
  ∧ (∀ pages : List (Page Issue), (∀ p ∈ pages, p.items = []) →
      (getIssues 0 (pages.map some)).1 = 0)
  ∧ (∀ pages : List (Page Issue), (∀ p ∈ pages, p.items = []) →
      (getLcP 0 0 (pages.map some)).1 = 0)
  ∧ (∀ pages : List (Page Issue), (∀ p ∈ pages, p.items = []) →
      (getMsgs 0 (pages.map some)).1 = 0)
  ∧ (∀ pages : List (Page Issue), (∀ p ∈ pages, p.items = []) →
      (getPulls 0 (pages.map some)).1 = 0)
  ∧ (∀ pages : List (Page Issue), (∀ p ∈ pages, p.items = []) →
      ∃ n : Nat, getReviews 0 (pages.map some) = some (0, n)) := by
  refine ⟨fun u s h => getCommits_requests u s h 0,
    fun u s h => getHoC_requests u s h 0,
    fun s h => getIssues_requests s h 0,
    fun s h => getLcP_requests s h 0 0,
    fun s h => getMsgs_requests s h 0,
    fun s h => getPulls_requests s h 0,
    fun s h => getReviews_requests s h 0,
    fun u pages h => getCommits_empty_items u pages h 0,
    fun u pages h => getHoC_empty_items u pages h 0,
    fun pages h => getIssues_empty_items pages h 0,
    fun pages h => by simpa using getLcP_empty_items pages h 0 0,
    fun pages h => getMsgs_empty_items pages h 0,
    fun pages h => getPulls_empty_items pages h 0,
    fun pages h => getReviews_empty_items pages h 0⟩

/-- Witness for `pagination_termination` at a one-page stream with no
results: one request is issued, every metric comes back zero. -/
theorem pagination_termination_witness :
    (getCommits "alice" 0 [some ⟨[], 0⟩]).2 = 1
  ∧ (getHoC "alice" 0 [some ⟨[], 0⟩]).2 = 1
  ∧ (getIssues 0 [some ⟨[], 0⟩]).2 = 1
  ∧ (getLcP 0 0 [some ⟨[], 0⟩]).2 = 1
  ∧ (getMsgs 0 [some ⟨[], 0⟩]).2 = 1
  ∧ (getPulls 0 [some ⟨[], 0⟩]).2 = 1
  ∧ (∃ v : Nat, getReviews 0 [some ⟨[], 0⟩] = some (v, 1))
  ∧ (getCommits "alice" 0 ([(⟨[], 0⟩ : Page Commit)].map some)).1 = 0
  ∧ (getHoC "alice" 0 ([(⟨[], 0⟩ : Page Commit)].map some)).1 = 0
  ∧ (getIssues 0 ([(⟨[], 0⟩ : Page Issue)].map some)).1 = 0
  ∧ (getLcP 0 0 ([(⟨[], 0⟩ : Page Issue)].map some)).1 = 0
  ∧ (getMsgs 0 ([(⟨[], 0⟩ : Page Issue)].map some)).1 = 0
  ∧ (getPulls 0 ([(⟨[], 0⟩ : Page Issue)].map some)).1 = 0
  ∧ (∃ n : Nat, getReviews 0 ([(⟨[], 0⟩ : Page Issue)].map some) = some (0, n)) := by
  obtain ⟨h1, h2, h3, h4, h5, h6, h7, h8, h9, h10, h11, h12, h13, h14⟩ :=
    pagination_termination
  exact ⟨by simpa using h1 "alice" [some ⟨[], 0⟩] (by decide),
    by simpa using h2 "alice" [some ⟨[], 0⟩] (by decide),
    by simpa using h3 [some ⟨[], 0⟩] (by decide),
    by simpa using h4 [some ⟨[], 0⟩] (by decide),
    by simpa using h5 [some ⟨[], 0⟩] (by decide),
    by simpa using h6 [some ⟨[], 0⟩] (by decide),
    by simpa using h7 [some ⟨[], 0⟩] (by decide),
    h8 "alice" [⟨[], 0⟩] (by decide),
    h9 "alice" [⟨[], 0⟩] (by decide),
    h10 [⟨[], 0⟩] (by decide),
    h11 [⟨[], 0⟩] (by decide),
    h12 [⟨[], 0⟩] (by decide),
    h13 [⟨[], 0⟩] (by decide),
    h14 [⟨[], 0⟩] (by decide)⟩

/-- Body of the `"all"` branch of `calculateMetrics` for a single
repository: run all seven collectors against their response streams and
fold the collected values into the user's accumulator with
`updateUserMetrics`, recording the repository's `hoc` contribution in
`Repos`.  A `getReviews` panic (`none`) aborts the whole run. -/
def calculateAllForRepo (user repoFullName : String) (m : UserMetrics)
    (commitPages hocPages : List (Option (Page Commit)))
    (issuePages lcpPages msgPages pullPages reviewPages :
      List (Option (Page Issue))) : Option UserMetrics :=
  let commits := (getCommits user 0 commitPages).1
  let hoc := (getHoC user 0 hocPages).1
  let issues := (getIssues 0 issuePages).1
  let lcp := (getLcP 0 0 lcpPages).1
  let msgs := (getMsgs 0 msgPages).1
  let pulls := (getPulls 0 pullPages).1
  match getReviews 0 reviewPages with
  | none => none
  | some r =>
    some (updateUserMetrics m
      { Commits := commits, HoC := hoc, Issues := issues, LcP := lcp
        Msgs := msgs, Pulls := pulls, Reviews := r.1, Score := 0
        Repos := some [(repoFullName, hoc)] })

/-- The three non-merge commits of the C2 scenario: authored by alice,
one parent each, and file diffs totalling 40 additions and 10 deletions,
hence (by the platform's convention changes = additions + deletions)
a total `changes` count of 50. -/
def aliceCommitPages : List (Option (Page Commit)) :=
  [some ⟨[{ authorLogin := some "alice", parentsCount := 1
            files := some [{ additions := 20, changes := 25 }] },
          { authorLogin := some "alice", parentsCount := 1
            files := some [{ additions := 15, changes := 18 }] },
          { authorLogin := some "alice", parentsCount := 1
            files := some [{ additions := 5, changes := 7 }] }], 0⟩]

/-- The single merged pull request of the C2 scenario, as an issue-search
result: a pull request created at hour 0 and closed at hour 24, with no
comments. -/
def alicePR : Issue :=
  { isPR := true, createdAt := some 0, closedAt := some 24, comments := 0
    repositoryURL := [] }

/-- C2 scenario: user alice, one repository, the commits and the merged
pull request above, no issues, no reviews, no comments. -/
def aliceScenario : Option UserMetrics :=
  calculateAllForRepo "alice" "org/repo" emptyUserMetrics
    aliceCommitPages aliceCommitPages
    [some ⟨[alicePR], 0⟩] [some ⟨[alicePR], 0⟩] [some ⟨[], 0⟩]
    [some ⟨[alicePR], 0⟩] [some ⟨[], 0⟩]

/-- C2 counterexample: on the scenario of the claim the program does NOT
produce `HoC = 50` and `Score = 300`.  `getHoC` adds
`GetAdditions() + GetChanges()` for every file, so +40/−10 yields
40 + 50 = 90, and `calculateScore` also adds `Commits*5`. -/
theorem alice_scenario_refutes_claim :
    aliceScenario.map (fun m => (m.HoC, m.Score)) ≠ some (50, (300 : ℚ)) := by
  have h : aliceScenario.map (fun m => (m.HoC, m.Score)) = some (90, (355 : ℚ)) := by
    with_unfolding_all rfl
  rw [h]
  intro hc
  simp at hc

/-- C2 amended: the scenario produces `Commits = 3`, `HoC = 90`
(40 additions + 50 changes), `Pulls = 1`, `Issues = 0`, `Reviews = 0`,
`Msgs = 0`, and `Score = 90 + 250 + 15 = 355`. -/
theorem alice_scenario_metrics :
    aliceScenario = some
      { Commits := 3, HoC := 90, Issues := 0, LcP := 24, Msgs := 0, Pulls := 1
        Reviews := 0, Score := 355, Repos := some [("org/repo", 90)] } := by
  with_unfolding_all rfl

/-- Character-list model of the Go strings that repository discovery
takes apart with `strings.Split` and `strings.HasPrefix`. -/
abbrev GoStr := List Char

/-- Go `strings.Split(s, sep)` for a one-character separator: splitting
the empty string yields `[""]`, and the result always has one more chunk
than there are separators. -/
def splitChar (sep : Char) : GoStr → List GoStr
  | [] => [[]]
  | c :: rest =>
    match splitChar sep rest with
    | [] => [[]]
    | chunk :: chunks =>
      if c = sep then [] :: chunk :: chunks
      else (c :: chunk) :: chunks

/-- Go `strings.HasPrefix(s, pre)`. -/
def hasPfx : GoStr → GoStr → Bool
  | _, [] => true
  | [], _ :: _ => false
  | c :: cs, p :: ps => c == p && hasPfx cs ps

/-- Go `parseRepoURL`: split the URL on `/` and, when there are at least
two parts, return `parts[len(parts)-2] + "/" + parts[len(parts)-1]`
(here read off the reversed chunk list); otherwise the empty string. -/
def parseRepoURL (repoURL : GoStr) : GoStr :=
  match (splitChar '/' repoURL).reverse with
  | name :: owner :: _ => owner ++ '/' :: name
  | _ => []

/-- Filter applied to an extracted identifier before it is recorded:
`repoFullName != "" && (organization == "" ||
strings.HasPrefix(repoFullName, organization+"/"))`. -/
def repoPasses (organization x : GoStr) : Bool :=
  !x.isEmpty && (organization.isEmpty || hasPfx x (organization ++ ['/']))

/-- Map write `reposMap[repoFullName] = true` in the insertion-set
model. -/
def insertRepo (s : List GoStr) (r : GoStr) : List GoStr :=
  if r ∈ s then s else r :: s

/-- Loop body shared by the three discovery queries: for a search result
that is a pull request, extract the repository identifier and record it
when it passes the organization filter. -/
def handleIssue (organization : GoStr) (s : List GoStr) (issue : Issue) : List GoStr :=
  if issue.isPR then
    let repoFullName := parseRepoURL issue.repositoryURL
    if repoPasses organization repoFullName then insertRepo s repoFullName else s
  else s

/-- One paginated discovery query over its response stream: process each
page's results with `handleIssue`; a failed request breaks out of this
query's loop (the other queries still run). -/
def discoverLoop (organization : GoStr) :
    List GoStr → List (Option (Page Issue)) → List GoStr
  | s, [] => s
  | s, none :: _ => s
  | s, some page :: rest =>
    let s' := page.items.foldl (handleIssue organization) s
    if page.nextPage = 0 then s' else discoverLoop organization s' rest

/-- Go `getUserRepositories`: run the authored, commented-on and
reviewed pull-request search queries in order against one shared
insertion set, and return the set's contents. -/
def getUserRepositories (organization : GoStr)
    (authorPages commenterPages reviewerPages : List (Option (Page Issue))) :
    List GoStr :=
  discoverLoop organization
    (discoverLoop organization
      (discoverLoop organization [] authorPages) commenterPages) reviewerPages

/-- Identifier `r` is extracted, passing the organization filter, from
some successfully fetched page of the query's response stream. -/
def ExtractedIn (organization : GoStr) (q : List (Option (Page Issue)))
    (r : GoStr) : Prop :=
  ∃ p : Page Issue, some p ∈ q ∧ ∃ i ∈ p.items, i.isPR = true
    ∧ parseRepoURL i.repositoryURL = r ∧ repoPasses organization r = true

lemma mem_insertRepo_self (s : List GoStr) (r : GoStr) : r ∈ insertRepo s r := by
  unfold insertRepo
  split
  · assumption
  · exact List.mem_cons_self r s

lemma mem_insertRepo_of_mem {s : List GoStr} {x : GoStr} (r : GoStr)
    (h : x ∈ s) : x ∈ insertRepo s r := by
  unfold insertRepo
  split
  · exact h
  · exact List.mem_cons_of_mem r h

lemma mem_handleIssue_of_mem (organization : GoStr) {s : List GoStr}
    {x : GoStr} (i : Issue) (h : x ∈ s) : x ∈ handleIssue organization s i := by
  by_cases h1 : i.isPR = true
  · by_cases h2 : repoPasses organization (parseRepoURL i.repositoryURL) = true
    · simp only [handleIssue, h1, h2, if_true]
      exact mem_insertRepo_of_mem _ h
    · simp only [handleIssue, h1, if_true]
      rw [if_neg h2]
      exact h
  · simp only [handleIssue]
    rw [if_neg h1]
    exact h

lemma mem_foldl_handleIssue_of_mem (organization : GoStr) :
    ∀ (items : List Issue) {s : List GoStr} {x : GoStr}, x ∈ s →
      x ∈ items.foldl (handleIssue organization) s := by
  intro items
  induction items with
  | nil => intro s x h; exact h
  | cons i rest ih =>
    intro s x h
    exact ih (mem_handleIssue_of_mem organization i h)

lemma mem_foldl_handleIssue_of_extracted (organization : GoStr) :
    ∀ (items : List Issue) (s : List GoStr) {r : GoStr} (i : Issue),
      i ∈ items → i.isPR = true → parseRepoURL i.repositoryURL = r →
      repoPasses organization r = true →
      r ∈ items.foldl (handleIssue organization) s := by
  intro items
  induction items with
  | nil => intro s r i hi; cases hi
  | cons j rest ih =>
    intro s r i hi hpr hparse hpass
    rcases List.mem_cons.mp hi with he | hm
    · subst he
      have hr : r ∈ handleIssue organization s i := by
        simp only [handleIssue, hpr, if_true, hparse, hpass]
        exact mem_insertRepo_self s r
      rw [List.foldl_cons]
      exact mem_foldl_handleIssue_of_mem organization rest hr
    · rw [List.foldl_cons]
      exact ih _ i hm hpr hparse hpass

lemma mem_discoverLoop_of_mem (organization : GoStr) :
    ∀ (q : List (Option (Page Issue))) {s : List GoStr} {x : GoStr}, x ∈ s →
      x ∈ discoverLoop organization s q := by
  intro q
  induction q with
  | nil => intro s x h; exact h
  | cons hd tl ih =>
    intro s x h
    cases hd with
    | none => exact h
    | some p =>
      have h' := mem_foldl_handleIssue_of_mem organization p.items h
      by_cases hn : p.nextPage = 0 <;> simp [discoverLoop, hn, h', ih h']

lemma mem_discoverLoop_of_extracted (organization : GoStr) :
    ∀ (q : List (Option (Page Issue))), processesAll q = true →
      ∀ {r : GoStr}, ExtractedIn organization q r →
      ∀ s : List GoStr, r ∈ discoverLoop organization s q := by
  intro q
  induction q with
  | nil =>
    intro _ r hex s
    obtain ⟨p, hp, _⟩ := hex
    cases hp
  | cons hd tl ih =>
    intro h r hex s
    cases hd with
    | none => cases tl <;> simp [processesAll] at h
    | some p =>
      obtain ⟨p', hp', i, hi, hpr, hparse, hpass⟩ := hex
      rcases List.mem_cons.mp hp' with he | hm
      · have hpe : p' = p := Option.some.inj he
        have hi2 : i ∈ p.items := hpe ▸ hi
        have hr := mem_foldl_handleIssue_of_extracted organization p.items s i
          hi2 hpr hparse hpass
        by_cases hn : p.nextPage = 0 <;>
          simp [discoverLoop, hn, hr, mem_discoverLoop_of_mem organization tl hr]
      · cases tl with
        | nil => cases hm
        | cons q' rest =>
          have hh : (p.nextPage != 0) = true ∧ processesAll (q' :: rest) = true := by
            simpa [processesAll, Bool.and_eq_true] using h
          have hn : ¬ p.nextPage = 0 := by
            intro e; rw [e] at hh; simp at hh
          have hex' : ExtractedIn organization (q' :: rest) r :=
            ⟨p', hm, i, hi, hpr, hparse, hpass⟩
          simp [discoverLoop, hn, ih hh.2 hex' _]

lemma nodup_insertRepo {s : List GoStr} (r : GoStr) (h : s.Nodup) :
    (insertRepo s r).Nodup := by
  unfold insertRepo
  split
  · exact h
  · exact List.nodup_cons.mpr ⟨by assumption, h⟩

lemma nodup_handleIssue (organization : GoStr) {s : List GoStr} (i : Issue)
    (h : s.Nodup) : (handleIssue organization s i).Nodup := by
  by_cases h1 : i.isPR = true
  · by_cases h2 : repoPasses organization (parseRepoURL i.repositoryURL) = true
    · simp only [handleIssue, h1, h2, if_true]
      exact nodup_insertRepo _ h
    · simp only [handleIssue, h1, if_true]
      rw [if_neg h2]
      exact h
  · simp only [handleIssue]
    rw [if_neg h1]
    exact h

lemma nodup_foldl_handleIssue (organization : GoStr) :
    ∀ (items : List Issue) {s : List GoStr}, s.Nodup →
      (items.foldl (handleIssue organization) s).Nodup := by
  intro items
  induction items with
  | nil => intro s h; exact h
  | cons i rest ih =>
    intro s h
    exact ih (nodup_handleIssue organization i h)

lemma nodup_discoverLoop (organization : GoStr) :
    ∀ (q : List (Option (Page Issue))) {s : List GoStr}, s.Nodup →
      (discoverLoop organization s q).Nodup := by
  intro q
  induction q with
  | nil => intro s h; exact h
  | cons hd tl ih =>
    intro s h
    cases hd with
    | none => exact h
    | some p =>
      have h' := nodup_foldl_handleIssue organization p.items h
      by_cases hn : p.nextPage = 0 <;> simp [discoverLoop, hn, h', ih h']

lemma nodup_getUserRepositories (organization : GoStr)
    (qA qC qR : List (Option (Page Issue))) :
    (getUserRepositories organization qA qC qR).Nodup :=
  nodup_discoverLoop organization qR
    (nodup_discoverLoop organization qC
      (nodup_discoverLoop organization qA List.nodup_nil))

lemma mem_insertRepo_elim {s : List GoStr} {x r : GoStr}
    (h : x ∈ insertRepo s r) : x ∈ s ∨ x = r := by
  unfold insertRepo at h
  split at h
  · exact Or.inl h
  · rcases List.mem_cons.mp h with he | hm
    · exact Or.inr he
    · exact Or.inl hm

lemma mem_handleIssue_elim (organization : GoStr) {s : List GoStr} {x : GoStr}
    (i : Issue) (h : x ∈ handleIssue organization s i) :
    x ∈ s ∨ (∃ url : GoStr, x = parseRepoURL url ∧ repoPasses organization x = true) := by
  by_cases h1 : i.isPR = true
  · by_cases h2 : repoPasses organization (parseRepoURL i.repositoryURL) = true
    · simp only [handleIssue, h1, h2, if_true] at h
      rcases mem_insertRepo_elim h with hm | he
      · exact Or.inl hm
      · exact Or.inr ⟨i.repositoryURL, he, he ▸ h2⟩
    · simp only [handleIssue, h1, if_true] at h
      rw [if_neg h2] at h
      exact Or.inl h
  · simp only [handleIssue] at h
    rw [if_neg h1] at h
    exact Or.inl h

lemma mem_foldl_handleIssue_elim (organization : GoStr) :
    ∀ (items : List Issue) {s : List GoStr} {x : GoStr},
      x ∈ items.foldl (handleIssue organization) s →
      x ∈ s ∨ (∃ url : GoStr, x = parseRepoURL url ∧ repoPasses organization x = true) := by
  intro items
  induction items with
  | nil => intro s x h; exact Or.inl h
  | cons i rest ih =>
    intro s x h
    rw [List.foldl_cons] at h
    rcases ih h with hm | he
    · exact mem_handleIssue_elim organization i hm
    · exact Or.inr he

lemma mem_discoverLoop_elim (organization : GoStr) :
    ∀ (q : List (Option (Page Issue))) {s : List GoStr} {x : GoStr},
      x ∈ discoverLoop organization s q →
      x ∈ s ∨ (∃ url : GoStr, x = parseRepoURL url ∧ repoPasses organization x = true) := by
  intro q
  induction q with
  | nil => intro s x h; exact Or.inl h
  | cons hd tl ih =>
    intro s x h
    cases hd with
    | none => exact Or.inl h
    | some p =>
      by_cases hn : p.nextPage = 0
      · simp only [discoverLoop] at h
        rw [if_pos hn] at h
        exact mem_foldl_handleIssue_elim organization p.items h
      · simp only [discoverLoop] at h
        rw [if_neg hn] at h
        rcases ih h with hm | he
        · exact mem_foldl_handleIssue_elim organization p.items hm
        · exact Or.inr he

lemma mem_getUserRepositories_elim (organization : GoStr)
    {qA qC qR : List (Option (Page Issue))} {x : GoStr}
    (h : x ∈ getUserRepositories organization qA qC qR) :
    ∃ url : GoStr, x = parseRepoURL url ∧ repoPasses organization x = true := by
  unfold getUserRepositories at h
  rcases mem_discoverLoop_elim organization qR h with h | he
  · rcases mem_discoverLoop_elim organization qC h with h | he
    · rcases mem_discoverLoop_elim organization qA h with h | he
      · cases h
      · exact he
    · exact he
  · exact he

lemma splitChar_ne_nil (sep : Char) : ∀ s : GoStr, splitChar sep s ≠ [] := by
  intro s
  cases s with
  | nil => simp [splitChar]
  | cons c rest =>
    simp only [splitChar]
    cases h : splitChar sep rest with
    | nil => simp
    | cons chunk chunks =>
      by_cases hc : c = sep <;> simp [hc]

lemma sep_not_mem_splitChar (sep : Char) :
    ∀ (s : GoStr) {chunk : GoStr}, chunk ∈ splitChar sep s → sep ∉ chunk := by
  intro s
  induction s with
  | nil =>
    intro chunk h
    simp only [splitChar, List.mem_singleton] at h
    subst h
    simp
  | cons c rest ih =>
    intro chunk h
    simp only [splitChar] at h
    cases hs : splitChar sep rest with
    | nil => exact absurd hs (splitChar_ne_nil sep rest)
    | cons chunk0 chunks =>
      rw [hs] at h
      have h : chunk ∈
          (if c = sep then [] :: chunk0 :: chunks else (c :: chunk0) :: chunks) := h
      by_cases hc : c = sep
      · rw [if_pos hc] at h
        rcases List.mem_cons.mp h with he | hm
        · subst he; simp
        · exact ih (hs ▸ hm)
      · rw [if_neg hc] at h
        rcases List.mem_cons.mp h with he | hm
        · subst he
          intro hmem
          rcases List.mem_cons.mp hmem with he2 | hm2
          · exact hc he2.symm
          · exact ih (hs ▸ List.mem_cons_self chunk0 chunks) hm2
        · exact ih (hs ▸ List.mem_cons_of_mem chunk0 hm)

lemma parseRepoURL_shape {url r : GoStr} (h : parseRepoURL url = r)
    (hne : r ≠ []) :
    ∃ a b : GoStr, r = a ++ '/' :: b ∧ '/' ∉ a ∧ '/' ∉ b := by
  unfold parseRepoURL at h
  cases hrev : (splitChar '/' url).reverse with
  | nil => rw [hrev] at h; exact absurd h.symm hne
  | cons name tl =>
    cases tl with
    | nil => rw [hrev] at h; exact absurd h.symm hne
    | cons owner rest =>
      rw [hrev] at h
      have hname : name ∈ splitChar '/' url := by
        have : name ∈ (splitChar '/' url).reverse := by rw [hrev]; simp
        simpa using this
      have howner : owner ∈ splitChar '/' url := by
        have : owner ∈ (splitChar '/' url).reverse := by rw [hrev]; simp
        simpa using this
      exact ⟨owner, name, h.symm, sep_not_mem_splitChar '/' url howner,
        sep_not_mem_splitChar '/' url hname⟩

lemma slash_mem_of_hasPfx :
    ∀ (xs s : GoStr), hasPfx s (xs ++ ['/']) = true → '/' ∈ s := by
  intro xs
  induction xs with
  | nil =>
    intro s h
    cases s with
    | nil => simp [hasPfx] at h
    | cons c cs =>
      simp only [List.nil_append, hasPfx, Bool.and_eq_true, beq_iff_eq] at h
      exact h.1 ▸ List.mem_cons_self c cs
  | cons x xs ih =>
    intro s h
    cases s with
    | nil => simp [hasPfx] at h
    | cons c cs =>
      simp only [List.cons_append, hasPfx, Bool.and_eq_true] at h
      exact List.mem_cons_of_mem c (ih cs h.2)

lemma hasPfx_forces_owner :
    ∀ (a : GoStr) (organization b : GoStr), '/' ∉ a → '/' ∉ b →
      hasPfx (a ++ '/' :: b) (organization ++ ['/']) = true → organization = a := by
  intro a
  induction a with
  | nil =>
    intro organization b _ hb h
    cases organization with
    | nil => rfl
    | cons o os =>
      simp only [List.nil_append, List.cons_append, hasPfx, Bool.and_eq_true] at h
      exact absurd (slash_mem_of_hasPfx os b h.2) hb
  | cons x a' ih =>
    intro organization b ha hb h
    cases organization with
    | nil =>
      simp only [List.nil_append, List.cons_append, hasPfx, Bool.and_eq_true,
        beq_iff_eq] at h
      exact absurd (h.1 ▸ List.mem_cons_self x a') ha
    | cons o os =>
      simp only [List.cons_append, hasPfx, Bool.and_eq_true, beq_iff_eq] at h
      have ha' : '/' ∉ a' := fun hm => ha (List.mem_cons_of_mem x hm)
      rw [ih os b ha' hb h.2, h.1]

lemma takeWhile_append_slash (b : GoStr) :
    ∀ a : GoStr, '/' ∉ a →
      (a ++ '/' :: b).takeWhile (fun c => !(c == '/')) = a := by
  intro a
  induction a with
  | nil => intro _; simp [List.takeWhile]
  | cons x a' ih =>
    intro ha
    have hx : ¬ x = '/' := fun he => ha (he ▸ List.mem_cons_self x a')
    have ha' : '/' ∉ a' := fun hm => ha (List.mem_cons_of_mem x hm)
    simp only [List.cons_append, List.takeWhile_cons]
    simp [hx, ih ha']

lemma mem_getUserRepositories_of_extracted (organization : GoStr)
    (qA qC qR : List (Option (Page Issue))) (r : GoStr)
    (hA : processesAll qA = true) (hC : processesAll qC = true)
    (hR : processesAll qR = true)
    (hex : ExtractedIn organization qA r ∨ ExtractedIn organization qC r
      ∨ ExtractedIn organization qR r) :
    r ∈ getUserRepositories organization qA qC qR := by
  unfold getUserRepositories
  rcases hex with h | h | h
  · exact mem_discoverLoop_of_mem organization qR
      (mem_discoverLoop_of_mem organization qC
        (mem_discoverLoop_of_extracted organization qA hA h []))
  · exact mem_discoverLoop_of_mem organization qR
      (mem_discoverLoop_of_extracted organization qC hC h _)
  · exact mem_discoverLoop_of_extracted organization qR hR h _

/-- C5: repository discovery returns the union of the three queries'
extractions: every identifier extracted (passing the organization
filter) from any page of the authored, commented-on or reviewed query is
present in the returned list, whenever the streams deliver all their
pages. -/
theorem discovery_union (organization : GoStr)
    (qA qC qR : List (Option (Page Issue))) (r : GoStr)
    (hA : processesAll qA = true) (hC : processesAll qC = true)
    (hR : processesAll qR = true)
    (hex : ExtractedIn organization qA r ∨ ExtractedIn organization qC r
      ∨ ExtractedIn organization qR r) :
    r ∈ getUserRepositories organization qA qC qR :=
  mem_getUserRepositories_of_extracted organization qA qC qR r hA hC hR hex

/-- Search result used by the concrete discovery scenarios. -/
def demoIssue (url : GoStr) : Issue :=
  { isPR := true, createdAt := none, closedAt := none, comments := 0
    repositoryURL := url }

/-- One page of authored-pull-request results naming two repositories. -/
def demoAuthorPages : List (Option (Page Issue)) :=
  [some ⟨[demoIssue ['o', 'r', 'g', '/', 'r'], demoIssue ['x', '/', 'y']], 0⟩]

/-- One page of reviewed-pull-request results naming the repository that
the authored query also names. -/
def demoReviewerPages : List (Option (Page Issue)) :=
  [some ⟨[demoIssue ['o', 'r', 'g', '/', 'r']], 0⟩]

/-- Witness for `discovery_union`: the second repository of the authored
page shows up in the discovery result. -/
theorem discovery_union_witness :
    ['x', '/', 'y'] ∈ getUserRepositories [] demoAuthorPages [] [] := by
  refine discovery_union [] demoAuthorPages [] [] ['x', '/', 'y']
    (by decide) rfl rfl (Or.inl ?_)
  exact ⟨⟨[demoIssue ['o', 'r', 'g', '/', 'r'], demoIssue ['x', '/', 'y']], 0⟩,
    by decide, demoIssue ['x', '/', 'y'], by decide, rfl, by decide, by decide⟩

lemma count_one_of_nodup_mem {l : List GoStr} {r : GoStr}
    (hn : l.Nodup) (hm : r ∈ l) : List.count r l = 1 := by
  induction l with
  | nil => cases hm
  | cons x xs ih =>
    rcases List.mem_cons.mp hm with he | hmm
    · subst he
      have hnx : r ∉ xs := (List.nodup_cons.mp hn).1
      have hz : List.count r xs = 0 := by
        rw [List.count_eq_zero]
        exact hnx
      simp [List.count_cons, hz]
    · have hx : ¬ r = x := by
        intro he; subst he; exact (List.nodup_cons.mp hn).1 hmm
      have := ih (List.nodup_cons.mp hn).2 hmm
      simp [List.count_cons, hx, this]

/-- C6: discovery deduplicates by identifier equality: an identifier
extracted by more than one of the three queries appears exactly once in
the returned list. -/
theorem discovery_dedup (organization : GoStr)
    (qA qC qR : List (Option (Page Issue))) (r : GoStr)
    (hA : processesAll qA = true) (hC : processesAll qC = true)
    (hR : processesAll qR = true)
    (hex : (ExtractedIn organization qA r ∧ ExtractedIn organization qC r)
      ∨ (ExtractedIn organization qA r ∧ ExtractedIn organization qR r)
      ∨ (ExtractedIn organization qC r ∧ ExtractedIn organization qR r)) :
    List.count r (getUserRepositories organization qA qC qR) = 1 := by
  have hmem : r ∈ getUserRepositories organization qA qC qR := by
    rcases hex with ⟨h, _⟩ | ⟨h, _⟩ | ⟨h, _⟩
    · exact mem_getUserRepositories_of_extracted organization qA qC qR r hA hC hR
        (Or.inl h)
    · exact mem_getUserRepositories_of_extracted organization qA qC qR r hA hC hR
        (Or.inl h)
    · exact mem_getUserRepositories_of_extracted organization qA qC qR r hA hC hR
        (Or.inr (Or.inl h))
  exact count_one_of_nodup_mem
    (nodup_getUserRepositories organization qA qC qR) hmem

/-- Witness for `discovery_dedup`: a repository named by both the
authored and the reviewed query is listed exactly once. -/
theorem discovery_dedup_witness :
    List.count ['o', 'r', 'g', '/', 'r']
      (getUserRepositories [] demoAuthorPages [] demoReviewerPages) = 1 := by
  refine discovery_dedup [] demoAuthorPages [] demoReviewerPages
    ['o', 'r', 'g', '/', 'r'] (by decide) rfl (by decide)
    (Or.inr (Or.inl ⟨?_, ?_⟩))
  · exact ⟨⟨[demoIssue ['o', 'r', 'g', '/', 'r'], demoIssue ['x', '/', 'y']], 0⟩,
      by decide, demoIssue ['o', 'r', 'g', '/', 'r'], by decide, rfl, by decide,
      by decide⟩
  · exact ⟨⟨[demoIssue ['o', 'r', 'g', '/', 'r']], 0⟩, by decide,
      demoIssue ['o', 'r', 'g', '/', 'r'], by decide, rfl, by decide, by decide⟩

/-- C7: with a non-empty organization filter configured, every
identifier in the discovery result has the configured organization as
its owner segment (the part before the first slash), whatever mixture of
matching and non-matching search results the queries return. -/
theorem discovery_org_filter (organization : GoStr)
    (qA qC qR : List (Option (Page Issue))) (r : GoStr)
    (horg : organization ≠ [])
    (hmem : r ∈ getUserRepositories organization qA qC qR) :
    r.takeWhile (fun c => !(c == '/')) = organization := by
  obtain ⟨url, hparse, hpass⟩ := mem_getUserRepositories_elim organization hmem
  have hne : r ≠ [] := by
    intro he
    rw [he] at hpass
    simp [repoPasses] at hpass
  obtain ⟨a, b, hr, ha, hb⟩ := parseRepoURL_shape hparse.symm hne
  have hpfx : hasPfx r (organization ++ ['/']) = true := by
    simp only [repoPasses, Bool.and_eq_true, Bool.or_eq_true] at hpass
    rcases hpass.2 with he | hp
    · cases organization with
      | nil => exact absurd rfl horg
      | cons _ _ => simp [List.isEmpty] at he
    · exact hp
  rw [hr] at hpfx
  have howner := hasPfx_forces_owner a organization b ha hb hpfx
  rw [hr, takeWhile_append_slash b a ha]
  exact howner.symm

/-- Organization filter used by the C7 witness. -/
def demoOrg : GoStr := ['o', 'r', 'g']

/-- Witness for `discovery_org_filter`: with filter `org` configured,
the repository the discovery set retains has owner segment `org` (the
non-matching `x/y` result was dropped). -/
theorem discovery_org_filter_witness :
    (demoOrg ≠ [] ∧
      ['o', 'r', 'g', '/', 'r'] ∈ getUserRepositories demoOrg demoAuthorPages [] [])
    ∧ List.takeWhile (fun c => !(c == '/')) ['o', 'r', 'g', '/', 'r'] = demoOrg := by
  have hmem : ['o', 'r', 'g', '/', 'r'] ∈
      getUserRepositories demoOrg demoAuthorPages [] [] := by decide
  exact ⟨⟨by decide, hmem⟩,
    discovery_org_filter demoOrg demoAuthorPages [] []
      ['o', 'r', 'g', '/', 'r'] (by decide) hmem⟩

/-- Comparator of the `sort.Slice` call in `getTopRepos`: entry `a`
sorts before `b` when its lines-touched count is at least as large
(`sort.Slice` is given the strict `>`; a list is a valid outcome of that
sort exactly when consecutive entries satisfy `≥`). -/
def hocGE (a b : String × Nat) : Bool := b.2 ≤ a.2

/-- Entry list of the `repos` map sorted by descending lines-touched,
one of the orders `sort.Slice` may produce. -/
def topReposSorted (repos : List (String × Nat)) : List (String × Nat) :=
  repos.mergeSort hocGE

/-- Formatted entries of the `for i < len && i < 3` loop:
`fmt.Sprintf` of the first three sorted entries. -/
def topReposList (repos : List (String × Nat)) : List String :=
  ((topReposSorted repos).take 3).map (fun p => p.1 ++ "(" ++ toString p.2 ++ ")")

/-- Go `getTopRepos`: the formatted top-three entries joined with
`", "`. -/
def getTopRepos (repos : List (String × Nat)) : String :=
  String.intercalate ", " (topReposList repos)

/-- C8: the top-repositories string is built from at most 3 entries,
taken in descending lines-touched order and formatted `name(hoc)` joined
by `", "`, and it is the empty string when the user's repository map is
empty. -/
theorem top_repos_spec (repos : List (String × Nat)) :
    getTopRepos repos = String.intercalate ", " (topReposList repos)
    ∧ (topReposList repos).length ≤ 3
    ∧ List.Pairwise (fun (a b : String × Nat) => b.2 ≤ a.2)
        ((topReposSorted repos).take 3)
    ∧ (repos = [] → getTopRepos repos = "") := by
  refine ⟨rfl, ?_, ?_, ?_⟩
  · have hlen : (topReposList repos).length = min 3 (topReposSorted repos).length := by
      simp [topReposList, List.length_take]
    rw [hlen]
    exact Nat.min_le_left 3 _
  · have htrans : ∀ a b c : String × Nat,
        hocGE a b = true → hocGE b c = true → hocGE a c = true := by
      intro a b c
      simp only [hocGE, decide_eq_true_eq]
      omega
    have htotal : ∀ a b : String × Nat, (hocGE a b || hocGE b a) = true := by
      intro a b
      simp only [hocGE, Bool.or_eq_true, decide_eq_true_eq]
      omega
    have hs := List.sorted_mergeSort htrans htotal repos
    have hs' : List.Pairwise (fun (a b : String × Nat) => b.2 ≤ a.2)
        (topReposSorted repos) := by
      refine hs.imp ?_
      intro a b h
      simpa [hocGE] using h
    exact List.Pairwise.sublist (List.take_sublist 3 _) hs'
  · intro h
    subst h
    simp [getTopRepos, topReposList, topReposSorted, String.intercalate]

/-- Witness for `top_repos_spec`: a user with an empty repository map
gets the empty top-repositories string. -/
theorem top_repos_spec_witness : getTopRepos [] = "" :=
  (top_repos_spec []).2.2.2 rfl

/-- Values the seven collectors deliver for one repository of a user, as
consumed by the `"hoc"` and `"all"` branches of `calculateMetrics`. -/
structure RepoContrib where
  repoFullName : String
  commits : Nat
  hoc : Nat
  issues : Nat
  lcp : ℚ
  msgs : Nat
  pulls : Nat
  reviews : Nat
deriving Repr, DecidableEq

/-- Per-repository step of the `"hoc"` metric mode:
`updateUserMetrics(metrics[user], UserMetrics{HoC: hoc, Repos:
map{repoFullName: hoc}})`. -/
def hocModeStep (m : UserMetrics) (c : RepoContrib) : UserMetrics :=
  updateUserMetrics m
    { emptyUserMetrics with HoC := c.hoc, Repos := some [(c.repoFullName, c.hoc)] }

/-- Per-repository step of the `"all"` metric mode (lines 198-215 of the
Go source): every collected value plus the repository's `hoc` entry. -/
def allModeStep (m : UserMetrics) (c : RepoContrib) : UserMetrics :=
  updateUserMetrics m
    { Commits := c.commits, HoC := c.hoc, Issues := c.issues, LcP := c.lcp
      Msgs := c.msgs, Pulls := c.pulls, Reviews := c.reviews, Score := 0
      Repos := some [(c.repoFullName, c.hoc)] }

/-- Sum of the lines-touched values of a repository map. -/
def sumVals : List (String × Nat) → Nat
  | [] => 0
  | p :: rest => p.2 + sumVals rest

lemma sumVals_bumpRepo (r : String) (h : Nat) :
    ∀ l : List (String × Nat), sumVals (bumpRepo l r h) = sumVals l + h := by
  intro l
  induction l with
  | nil => simp [bumpRepo, sumVals]
  | cons p rest ih =>
    by_cases hp : p.1 = r <;> simp [bumpRepo, hp, sumVals, ih] <;> omega

lemma bumpRepo_append (r : String) (h : Nat) :
    ∀ l : List (String × Nat), (∀ p ∈ l, p.1 ≠ r) →
      bumpRepo l r h = l ++ [(r, h)] := by
  intro l
  induction l with
  | nil => intro _; rfl
  | cons p rest ih =>
    intro hd
    have hp : ¬ p.1 = r := hd p (List.mem_cons_self p rest)
    simp only [bumpRepo, if_neg hp, List.cons_append, List.cons.injEq, true_and]
    exact ih (fun q hq => hd q (List.mem_cons_of_mem p hq))

lemma allModeStep_repos (m : UserMetrics) (c : RepoContrib) :
    (allModeStep m c).Repos
      = some (bumpRepo (m.Repos.getD []) c.repoFullName c.hoc) := rfl

lemma hocModeStep_repos (m : UserMetrics) (c : RepoContrib) :
    (hocModeStep m c).Repos
      = some (bumpRepo (m.Repos.getD []) c.repoFullName c.hoc) := rfl

lemma allModeStep_hoc (m : UserMetrics) (c : RepoContrib) :
    (allModeStep m c).HoC = m.HoC + c.hoc := rfl

lemma hocModeStep_hoc (m : UserMetrics) (c : RepoContrib) :
    (hocModeStep m c).HoC = m.HoC + c.hoc := rfl

lemma sumVals_foldl_allMode :
    ∀ (contribs : List RepoContrib) (m : UserMetrics),
      sumVals (m.Repos.getD []) = m.HoC →
      sumVals ((contribs.foldl allModeStep m).Repos.getD [])
        = (contribs.foldl allModeStep m).HoC := by
  intro contribs
  induction contribs with
  | nil => intro m h; exact h
  | cons c rest ih =>
    intro m h
    rw [List.foldl_cons]
    apply ih
    rw [allModeStep_repos, allModeStep_hoc, Option.getD_some,
      sumVals_bumpRepo, h]

lemma sumVals_foldl_hocMode :
    ∀ (contribs : List RepoContrib) (m : UserMetrics),
      sumVals (m.Repos.getD []) = m.HoC →
      sumVals ((contribs.foldl hocModeStep m).Repos.getD [])
        = (contribs.foldl hocModeStep m).HoC := by
  intro contribs
  induction contribs with
  | nil => intro m h; exact h
  | cons c rest ih =>
    intro m h
    rw [List.foldl_cons]
    apply ih
    rw [hocModeStep_repos, hocModeStep_hoc, Option.getD_some,
      sumVals_bumpRepo, h]

lemma repos_isSome_foldl_allMode :
    ∀ (contribs : List RepoContrib) (m : UserMetrics),
      m.Repos.isSome = true →
      ((contribs.foldl allModeStep m).Repos).isSome = true := by
  intro contribs
  induction contribs with
  | nil => intro m h; exact h
  | cons c rest ih =>
    intro m _
    rw [List.foldl_cons]
    exact ih _ (by rw [allModeStep_repos]; rfl)

lemma repos_isSome_foldl_hocMode :
    ∀ (contribs : List RepoContrib) (m : UserMetrics),
      m.Repos.isSome = true →
      ((contribs.foldl hocModeStep m).Repos).isSome = true := by
  intro contribs
  induction contribs with
  | nil => intro m h; exact h
  | cons c rest ih =>
    intro m _
    rw [List.foldl_cons]
    exact ih _ (by rw [hocModeStep_repos]; rfl)

lemma repos_list_foldl_allMode :
    ∀ (contribs : List RepoContrib) (m : UserMetrics),
      (∀ c ∈ contribs, ∀ p ∈ m.Repos.getD [], p.1 ≠ c.repoFullName) →
      (contribs.map (fun c => c.repoFullName)).Nodup →
      ((contribs.foldl allModeStep m).Repos.getD [])
        = m.Repos.getD [] ++ contribs.map (fun c => (c.repoFullName, c.hoc)) := by
  intro contribs
  induction contribs with
  | nil => intro m _ _; simp
  | cons c rest ih =>
    intro m hdisj hnd
    have hkey : ∀ p ∈ m.Repos.getD [], p.1 ≠ c.repoFullName :=
      hdisj c (List.mem_cons_self c rest)
    have hbump : (allModeStep m c).Repos.getD []
        = m.Repos.getD [] ++ [(c.repoFullName, c.hoc)] := by
      rw [allModeStep_repos, Option.getD_some, bumpRepo_append _ _ _ hkey]
    have hnd' : (rest.map (fun c => c.repoFullName)).Nodup :=
      (List.nodup_cons.mp (by simpa using hnd)).2
    have hhead : c.repoFullName ∉ rest.map (fun c => c.repoFullName) :=
      (List.nodup_cons.mp (by simpa using hnd)).1
    have hdisj' : ∀ c' ∈ rest, ∀ p ∈ (allModeStep m c).Repos.getD [],
        p.1 ≠ c'.repoFullName := by
      intro c' hc' p hp
      rw [hbump] at hp
      rcases List.mem_append.mp hp with hm | hm
      · exact hdisj c' (List.mem_cons_of_mem c hc') p hm
      · have hpc : p = (c.repoFullName, c.hoc) := List.mem_singleton.mp hm
        rw [hpc]
        intro he
        apply hhead
        have he' : c.repoFullName = c'.repoFullName := he
        rw [he']
        exact List.mem_map_of_mem (fun c => c.repoFullName) hc'
    rw [List.foldl_cons, ih _ hdisj' hnd', hbump]
    simp

lemma repos_list_foldl_hocMode :
    ∀ (contribs : List RepoContrib) (m : UserMetrics),
      (∀ c ∈ contribs, ∀ p ∈ m.Repos.getD [], p.1 ≠ c.repoFullName) →
      (contribs.map (fun c => c.repoFullName)).Nodup →
      ((contribs.foldl hocModeStep m).Repos.getD [])
        = m.Repos.getD [] ++ contribs.map (fun c => (c.repoFullName, c.hoc)) := by
  intro contribs
  induction contribs with
  | nil => intro m _ _; simp
  | cons c rest ih =>
    intro m hdisj hnd
    have hkey : ∀ p ∈ m.Repos.getD [], p.1 ≠ c.repoFullName :=
      hdisj c (List.mem_cons_self c rest)
    have hbump : (hocModeStep m c).Repos.getD []
        = m.Repos.getD [] ++ [(c.repoFullName, c.hoc)] := by
      rw [hocModeStep_repos, Option.getD_some, bumpRepo_append _ _ _ hkey]
    have hnd' : (rest.map (fun c => c.repoFullName)).Nodup :=
      (List.nodup_cons.mp (by simpa using hnd)).2
    have hhead : c.repoFullName ∉ rest.map (fun c => c.repoFullName) :=
      (List.nodup_cons.mp (by simpa using hnd)).1
    have hdisj' : ∀ c' ∈ rest, ∀ p ∈ (hocModeStep m c).Repos.getD [],
        p.1 ≠ c'.repoFullName := by
      intro c' hc' p hp
      rw [hbump] at hp
      rcases List.mem_append.mp hp with hm | hm
      · exact hdisj c' (List.mem_cons_of_mem c hc') p hm
      · have hpc : p = (c.repoFullName, c.hoc) := List.mem_singleton.mp hm
        rw [hpc]
        intro he
        apply hhead
        have he' : c.repoFullName = c'.repoFullName := he
        rw [he']
        exact List.mem_map_of_mem (fun c => c.repoFullName) hc'
    rw [List.foldl_cons, ih _ hdisj' hnd', hbump]
    simp

/-- C10: in the `"hoc"` and `"all"` metric modes, after aggregating any
sequence of per-repository contributions with pairwise-distinct
repository names (every prefix of a run is such a sequence, so this
holds after every step), the values of the user's `Repos` map sum to the
`HoC` total, the map is non-nil once at least one repository was
processed, and it holds exactly one entry per processed repository
carrying that repository's lines-touched contribution. -/
theorem repos_map_invariant (contribs : List RepoContrib)
    (hnd : (contribs.map (fun c => c.repoFullName)).Nodup) :
    (sumVals ((contribs.foldl allModeStep emptyUserMetrics).Repos.getD [])
        = (contribs.foldl allModeStep emptyUserMetrics).HoC)
    ∧ (sumVals ((contribs.foldl hocModeStep emptyUserMetrics).Repos.getD [])
        = (contribs.foldl hocModeStep emptyUserMetrics).HoC)
    ∧ (contribs ≠ [] →
        (contribs.foldl allModeStep emptyUserMetrics).Repos ≠ none
        ∧ (contribs.foldl hocModeStep emptyUserMetrics).Repos ≠ none)
    ∧ ((contribs.foldl allModeStep emptyUserMetrics).Repos.getD []
        = contribs.map (fun c => (c.repoFullName, c.hoc)))
    ∧ ((contribs.foldl hocModeStep emptyUserMetrics).Repos.getD []
        = contribs.map (fun c => (c.repoFullName, c.hoc))) := by
  refine ⟨sumVals_foldl_allMode contribs emptyUserMetrics rfl,
    sumVals_foldl_hocMode contribs emptyUserMetrics rfl, ?_, ?_, ?_⟩
  · intro hne
    cases contribs with
    | nil => exact absurd rfl hne
    | cons c rest =>
      constructor
      · have := repos_isSome_foldl_allMode rest (allModeStep emptyUserMetrics c)
          (by rw [allModeStep_repos]; rfl)
        rw [List.foldl_cons]
        exact fun he => by rw [he] at this; cases this
      · have := repos_isSome_foldl_hocMode rest (hocModeStep emptyUserMetrics c)
          (by rw [hocModeStep_repos]; rfl)
        rw [List.foldl_cons]
        exact fun he => by rw [he] at this; cases this
  · have := repos_list_foldl_allMode contribs emptyUserMetrics
      (by intro c _ p hp; cases hp) hnd
    simpa using this
  · have := repos_list_foldl_hocMode contribs emptyUserMetrics
      (by intro c _ p hp; cases hp) hnd
    simpa using this

/-- Contributions of two distinct repositories, used as the concrete
instance of `repos_map_invariant`. -/
def demoContribs : List RepoContrib :=
  [{ repoFullName := "org/a", commits := 1, hoc := 2, issues := 3, lcp := 4
     msgs := 5, pulls := 6, reviews := 7 },
   { repoFullName := "org/b", commits := 0, hoc := 9, issues := 0, lcp := 0
     msgs := 0, pulls := 0, reviews := 0 }]

/-- Witness for `repos_map_invariant` on two concrete repositories. -/
theorem repos_map_invariant_witness :
    (demoContribs.map (fun c => c.repoFullName)).Nodup
    ∧ (demoContribs.foldl allModeStep emptyUserMetrics).Repos.getD []
        = demoContribs.map (fun c => (c.repoFullName, c.hoc)) := by
  have hnd : (demoContribs.map (fun c => c.repoFullName)).Nodup := by decide
  exact ⟨hnd, (repos_map_invariant demoContribs hnd).2.2.2.1⟩

end GithubMetrics
